import Mathlib

/-!
Verification of the Bayesian text classifier (package `classifier`,
file `classifier.go`) against its natural-language specification.

The Go model state is a pair of string-keyed hash maps:
  `data.Categorys : map[string]float64` (documents trained per category) and
  `data.Words : map[string]map[string]float64` (per-term, per-category counts).
We embed both as association lists with unique keys and embed `float64`
arithmetic as exact rational arithmetic over `ℚ`; division by zero yields `0`
in this embedding.  The `Scores` ranked-list container (`NewScores`, `Append`,
`Top`, `GetSlice`) is declared by the repository but its source file is not
among the provided sources, so it is modelled from the spec where noted.
Tokenization (`util.Segmenter.Segment`) is an external collaborator and is
embedded as an opaque-to-the-theorems function parameter `segment`.
-/

namespace BayesClassifier

/-- Character class of Go `unicode.IsSpace`, which `strings.TrimSpace`
strips: ASCII whitespace, NEL, NBSP and the Unicode space separators. -/
def isGoSpace (c : Char) : Bool :=
  c = ' ' || c = '\t' || c = '\n' || c = Char.ofNat 11 || c = Char.ofNat 12 ||
    c = '\r' || c = Char.ofNat 0x85 || c = Char.ofNat 0xA0 ||
    c = Char.ofNat 0x1680 || (0x2000 ≤ c.toNat && c.toNat ≤ 0x200A) ||
    c = Char.ofNat 0x2028 || c = Char.ofNat 0x2029 || c = Char.ofNat 0x202F ||
    c = Char.ofNat 0x205F || c = Char.ofNat 0x3000

/-- Go `strings.TrimSpace`: drop leading and trailing whitespace characters. -/
def trimSpace (s : String) : String :=
  String.mk (((s.data.dropWhile isGoSpace).reverse.dropWhile isGoSpace).reverse)

/-- Character-list splitter underlying `strings.Split` with a one-character
separator: cut at every occurrence of `sep`, keeping empty pieces. -/
def splitChar (sep : Char) : List Char → List (List Char)
  | [] => [[]]
  | c :: rest =>
    match splitChar sep rest with
    | [] => [[]]
    | g :: gs => if c = sep then [] :: g :: gs else (c :: g) :: gs

/-- Go `strings.Split(s, "/")`: the pieces of `s` between slashes, in order,
empty pieces included. -/
def splitSlash (s : String) : List String :=
  (splitChar '/' s.data).map String.mk

/-- Association-list version of the Go map increment `m[k]++` on a
`map[string]float64`: if the key is present its value grows by 1 in place,
otherwise the pair `(k, 1)` is added (absent keys read as the zero value 0). -/
def bump (l : List (String × ℚ)) (k : String) : List (String × ℚ) :=
  match l with
  | [] => [(k, 1)]
  | (k₀, v) :: rest => if k₀ = k then (k₀, v + 1) :: rest else (k₀, v) :: bump rest k

/-- Association-list version of the combined Go steps on `t.data.Words`:
`if _, ok := Words[word]; !ok that makes an empty inner map` followed by
`Words[word][category]++`. -/
def wordsBump (ws : List (String × List (String × ℚ))) (w cat : String) :
    List (String × List (String × ℚ)) :=
  match ws with
  | [] => [(w, bump [] cat)]
  | (w₀, inner) :: rest =>
    if w₀ = w then (w₀, bump inner cat) :: rest
    else (w₀, inner) :: wordsBump rest w cat

/-- The persistent model state, Go struct `data`: `Categorys` maps a category
to its trained-document count, `Words` maps a term to its per-category
occurrence counts. -/
structure Data where
  categorys : List (String × ℚ)
  words : List (String × List (String × ℚ))
deriving DecidableEq

/-- The model a fresh classifier starts from: both tables empty
(`NewClassifier` allocates empty maps). -/
def emptyData : Data := ⟨[], []⟩

/-- The classifier engine, Go struct `Classifier`: the segmenter, the two
smoothing parameters and the owned model state.  (Storage, debug flag and the
HTTP adapter only touch persistence and transport, which the claims do not
reach.) -/
structure Classifier where
  segment : String → List String
  defaultProb : ℚ
  defaultWeight : ℚ
  data : Data

/-- The training loop shared by `Training` and `TrainingwithSlash`: walk the
token list, skip a token already in the seen-set `fwords`, otherwise mark it
seen and increment `Words[word][category]`. -/
def trainLoop (category : String) :
    List String → List String → List (String × List (String × ℚ)) →
      List (String × List (String × ℚ))
  | [], _, ws => ws
  | word :: rest, fwords, ws =>
    if word ∈ fwords then trainLoop category rest fwords ws
    else trainLoop category rest (word :: fwords) (wordsBump ws word category)

/-- Go `Training`: trim both inputs, silently return on an empty document or
category, otherwise update `Words` once per distinct segmented token and
increment `Categorys[category]`. -/
def Training (t : Classifier) (doc category : String) : Classifier :=
  let doc := trimSpace doc
  let category := trimSpace category
  if doc = "" ∨ category = "" then t
  else
    { t with
      data :=
        ⟨bump t.data.categorys category,
         trainLoop category (t.segment doc) [] t.data.words⟩ }

/-- Go `TrainingwithSlash`: as `Training` but the tokens are the raw
`strings.Split(doc, "/")` pieces of the trimmed document. -/
def TrainingwithSlash (t : Classifier) (doc category : String) : Classifier :=
  let doc := trimSpace doc
  let category := trimSpace category
  if doc = "" ∨ category = "" then t
  else
    { t with
      data :=
        ⟨bump t.data.categorys category,
         trainLoop category (splitSlash doc) [] t.data.words⟩ }

/-- Go `wordProb`: 0 for a term absent from `Words`; otherwise the term's
count under the category divided by `Categorys[category]` (absent category key
reads 0), and 0 when the term has no entry under the category. -/
def wordProb (t : Classifier) (word category : String) : ℚ :=
  match List.lookup word t.data.words with
  | none => 0
  | some inner =>
    match List.lookup category inner with
    | some num => num / ((List.lookup category t.data.categorys).getD 0)
    | none => 0

/-- Go `wordWeightProb`: blend of `wordProb` with the assumed probability,
weighted by the term's total count over all categories (the range over
`Words[word]`, an empty range when the term is absent). -/
def wordWeightProb (t : Classifier) (word category : String)
    (weight assumedprob : ℚ) : ℚ :=
  let basicProb := wordProb t word category
  let total := ((List.lookup word t.data.words).getD []).foldl
    (fun acc p => acc + p.2) 0
  ((weight * assumedprob) + (total * basicProb)) / (weight + total)

/-- Score entry, Go `ScoreItem`: a category label with its score.  The type is
declared in a repository file that is not among the provided sources; its two
fields are fixed by the spec (label, probability). -/
structure ScoreItem where
  category : String
  score : ℚ
deriving DecidableEq

/-- Modelled from the spec: the ranked-order predicate of the missing `Scores`
container — item `a` precedes item `b` when `a` has the larger probability, or
equal probabilities and `a`'s category name is not after `b`'s (descending
probability, ties by category name ascending). -/
def scoreLE (a b : ScoreItem) : Bool :=
  decide (b.score < a.score) ||
    (decide (a.score = b.score) && decide (a.category ≤ b.category))

/-- Modelled from the spec: `Scores.Top(n)` of the missing `Scores` container
returns the first `n` items after sorting by descending probability with the
category-name-ascending tie-break. -/
def Top (n : Nat) (s : List ScoreItem) : List ScoreItem :=
  (s.mergeSort scoreLE).take n

/-- Go `Score`: empty list for a never-seen term (the fresh `Scores` slice);
with a non-empty category filter, a single weighted score for that category;
otherwise one weighted score per category in `Words[word]`; in both cases the
top 10. -/
def Score (t : Classifier) (word category : String) : List ScoreItem :=
  match List.lookup word t.data.words with
  | none => []
  | some inner =>
    if category ≠ "" then
      Top 10 [⟨category, wordWeightProb t word category t.defaultWeight t.defaultProb⟩]
    else
      Top 10 (inner.map
        (fun p => ⟨p.1, wordWeightProb t word p.1 t.defaultWeight t.defaultProb⟩))

/-- Go `docProb`: product over the document's segmented token sequence (not
de-duplicated) of each token's weighted conditional probability. -/
def docProb (t : Classifier) (doc category : String) : ℚ :=
  (t.segment doc).foldl
    (fun prob word =>
      prob * wordWeightProb t word category t.defaultWeight t.defaultProb) 1

/-- Go `categoryNumTotal`: sum of all category document counts. -/
def categoryNumTotal (t : Classifier) : ℚ :=
  t.data.categorys.foldl (fun total p => total + p.2) 0

/-- Go `Categorize`: one score per category in `Categorys`, namely
`docProb * Categorys[cate] / total`, ranked top 10. -/
def Categorize (t : Classifier) (doc : String) : List ScoreItem :=
  let total := categoryNumTotal t
  Top 10 (t.data.categorys.map
    (fun p =>
      ⟨p.1, docProb t doc p.1 * ((List.lookup p.1 t.data.categorys).getD 0) / total⟩))

/-- Reading helper: the count recorded for `word` under `category` in the Term
Frequency Table, 0 when absent at either level. -/
def countIn (d : Data) (word category : String) : ℚ :=
  (List.lookup category ((List.lookup word d.words).getD [])).getD 0

/-- Reading helper: the document count recorded for `category` in the Category
Table, 0 when absent. -/
def catCount (d : Data) (category : String) : ℚ :=
  (List.lookup category d.categorys).getD 0

/-- Reading helper: the count of `(w, cat)` read directly off a `Words`
association list, 0 when absent at either level. -/
def wcount (ws : List (String × List (String × ℚ))) (w cat : String) : ℚ :=
  (List.lookup cat ((List.lookup w ws).getD [])).getD 0

/-- Well-formed model states: every stored count is non-negative, as the data
model prescribes (counts are non-negative reals). -/
def WellFormed (d : Data) : Prop :=
  (∀ p ∈ d.categorys, 0 ≤ p.2) ∧ (∀ q ∈ d.words, ∀ r ∈ q.2, 0 ≤ r.2)

instance (d : Data) : Decidable (WellFormed d) := by
  unfold WellFormed; infer_instance

/-- Inner non-emptiness: every term present in the Term Frequency Table has a
non-empty per-category mapping. -/
def NonEmptyInner (d : Data) : Prop := ∀ p ∈ d.words, p.2 ≠ []

instance (d : Data) : Decidable (NonEmptyInner d) := by
  unfold NonEmptyInner; infer_instance

/-- Concrete classifier instance used by the evaluation witnesses: a
whole-document segmenter, the recommended defaults (assumed probability 1/2,
weight 1) and the empty starting model. -/
def tcEx : Classifier := ⟨fun s => [s], 1/2, 1, emptyData⟩

/-!  Helper lemmas about the table-update primitives.  -/

theorem lookup_bump_self (l : List (String × ℚ)) (k : String) :
    List.lookup k (bump l k) = some ((List.lookup k l).getD 0 + 1) := by
  induction l with
  | nil => simp [bump]
  | cons p rest ih =>
    obtain ⟨k₀, v⟩ := p
    by_cases h : k₀ = k
    · subst h; simp [bump, List.lookup]
    · simp [bump, h, List.lookup, Ne.symm h, ih, beq_false_of_ne (Ne.symm h)]

theorem lookup_bump_other (l : List (String × ℚ)) (k k₁ : String) (h : k₁ ≠ k) :
    List.lookup k₁ (bump l k) = List.lookup k₁ l := by
  induction l with
  | nil => simp [bump, List.lookup, beq_false_of_ne h]
  | cons p rest ih =>
    obtain ⟨k₀, v⟩ := p
    by_cases h2 : k₀ = k
    · subst h2; simp [bump, List.lookup, beq_false_of_ne h]
    · simp [bump, h2, List.lookup, ih]


theorem lookup_wordsBump_self (ws : List (String × List (String × ℚ))) (w cat : String) :
    List.lookup w (wordsBump ws w cat) = some (bump ((List.lookup w ws).getD []) cat) := by
  induction ws with
  | nil => simp [wordsBump, List.lookup]
  | cons p rest ih =>
    obtain ⟨w₀, inner⟩ := p
    by_cases h : w₀ = w
    · subst h; simp [wordsBump, List.lookup]
    · simp [wordsBump, h, List.lookup, beq_false_of_ne (Ne.symm h), ih]

theorem lookup_wordsBump_other (ws : List (String × List (String × ℚ))) (w cat w₁ : String)
    (h : w₁ ≠ w) : List.lookup w₁ (wordsBump ws w cat) = List.lookup w₁ ws := by
  induction ws with
  | nil => simp [wordsBump, List.lookup, beq_false_of_ne h]
  | cons p rest ih =>
    obtain ⟨w₀, inner⟩ := p
    by_cases h2 : w₀ = w
    · subst h2; simp [wordsBump, List.lookup, beq_false_of_ne h]
    · simp [wordsBump, h2, List.lookup, ih]

theorem wcount_wordsBump_self (ws : List (String × List (String × ℚ))) (w cat : String) :
    wcount (wordsBump ws w cat) w cat = wcount ws w cat + 1 := by
  simp [wcount, lookup_wordsBump_self, lookup_bump_self]

theorem wcount_wordsBump_other (ws : List (String × List (String × ℚ))) (w cat w₁ : String)
    (h : w₁ ≠ w) : wcount (wordsBump ws w cat) w₁ cat = wcount ws w₁ cat := by
  simp [wcount, lookup_wordsBump_other ws w cat w₁ h]

theorem wcount_trainLoop_seen (cat : String) (words : List String)
    (fwords : List String) (ws : List (String × List (String × ℚ))) (w : String)
    (h : w ∈ fwords) : wcount (trainLoop cat words fwords ws) w cat = wcount ws w cat := by
  induction words generalizing fwords ws with
  | nil => simp [trainLoop]
  | cons word rest ih =>
    by_cases hm : word ∈ fwords
    · simp [trainLoop, hm]; exact ih fwords ws h
    · have hne : w ≠ word := fun he => hm (he ▸ h)
      simp only [trainLoop, if_neg hm]
      rw [ih (word :: fwords) _ (List.mem_cons_of_mem _ h)]
      exact wcount_wordsBump_other ws word cat w hne

theorem wcount_trainLoop_new (cat : String) (words : List String)
    (fwords : List String) (ws : List (String × List (String × ℚ))) (w : String)
    (h : w ∈ words) (h2 : w ∉ fwords) :
    wcount (trainLoop cat words fwords ws) w cat = wcount ws w cat + 1 := by
  induction words generalizing fwords ws with
  | nil => simp at h
  | cons word rest ih =>
    by_cases hm : word ∈ fwords
    · have hne : w ≠ word := fun he => h2 (he ▸ hm)
      have hr : w ∈ rest := by
        rcases List.mem_cons.mp h with he | hr
        · exact absurd he hne
        · exact hr
      simp only [trainLoop, if_pos hm]
      exact ih fwords ws hr h2
    · simp only [trainLoop, if_neg hm]
      by_cases he : w = word
      · subst he
        rw [wcount_trainLoop_seen cat rest (w :: fwords) _ w (List.mem_cons_self w fwords)]
        exact wcount_wordsBump_self ws w cat
      · have hr : w ∈ rest := by
          rcases List.mem_cons.mp h with h3 | h3
          · exact absurd h3 he
          · exact h3
        have h2' : w ∉ word :: fwords := by
          intro hx
          rcases List.mem_cons.mp hx with h3 | h3
          · exact he h3
          · exact h2 h3
        rw [ih (word :: fwords) _ hr h2']
        rw [wcount_wordsBump_other ws word cat w he]


theorem bump_ne_nil (l : List (String × ℚ)) (k : String) : bump l k ≠ [] := by
  cases l with
  | nil => simp [bump]
  | cons p rest =>
    obtain ⟨k₀, v⟩ := p
    by_cases h : k₀ = k <;> simp [bump, h]

theorem wordsBump_nonempty (ws : List (String × List (String × ℚ))) (w cat : String)
    (h : ∀ p ∈ ws, p.2 ≠ []) : ∀ p ∈ wordsBump ws w cat, p.2 ≠ [] := by
  induction ws with
  | nil =>
    intro p hp
    simp [wordsBump] at hp
    subst hp
    exact bump_ne_nil [] cat
  | cons q rest ih =>
    obtain ⟨w₀, inner⟩ := q
    intro p hp
    by_cases he : w₀ = w
    · subst he
      simp [wordsBump] at hp
      rcases hp with hp | hp
      · subst hp; exact bump_ne_nil inner cat
      · exact h p (List.mem_cons_of_mem _ hp)
    · simp [wordsBump, he] at hp
      rcases hp with hp | hp
      · subst hp; exact h (w₀, inner) (List.mem_cons_self _ _)
      · exact ih (fun q hq => h q (List.mem_cons_of_mem _ hq)) p hp

theorem trainLoop_nonempty (cat : String) (words fwords : List String)
    (ws : List (String × List (String × ℚ))) (h : ∀ p ∈ ws, p.2 ≠ []) :
    ∀ p ∈ trainLoop cat words fwords ws, p.2 ≠ [] := by
  induction words generalizing fwords ws with
  | nil => simpa [trainLoop] using h
  | cons word rest ih =>
    by_cases hm : word ∈ fwords
    · simp only [trainLoop, if_pos hm]
      exact ih fwords ws h
    · simp only [trainLoop, if_neg hm]
      exact ih (word :: fwords) _ (wordsBump_nonempty ws word cat h)

/-- Claim C9: on a model created empty, every inner per-category mapping of
the Term Frequency Table is non-empty once created, and the property is
preserved by both training operations (the reading operations do not touch
the state). -/
theorem inner_nonempty_invariant :
    NonEmptyInner emptyData ∧
      (∀ (t : Classifier) (doc category : String), NonEmptyInner t.data →
        NonEmptyInner (Training t doc category).data) ∧
      (∀ (t : Classifier) (doc category : String), NonEmptyInner t.data →
        NonEmptyInner (TrainingwithSlash t doc category).data) := by
  refine ⟨by simp [NonEmptyInner, emptyData], ?_, ?_⟩
  · intro t doc category h
    unfold Training
    by_cases hif : trimSpace doc = "" ∨ trimSpace category = ""
    · simpa [hif] using h
    · simp only [if_neg hif]
      exact trainLoop_nonempty _ _ _ _ h
  · intro t doc category h
    unfold TrainingwithSlash
    by_cases hif : trimSpace doc = "" ∨ trimSpace category = ""
    · simpa [hif] using h
    · simp only [if_neg hif]
      exact trainLoop_nonempty _ _ _ _ h

theorem inner_nonempty_invariant_witness :
    NonEmptyInner emptyData ∧ NonEmptyInner (Training tcEx "abc" "x").data :=
  ⟨inner_nonempty_invariant.1,
    inner_nonempty_invariant.2.1 tcEx "abc" "x" (by decide)⟩

/-- Claim C8: calling Training or TrainingwithSlash with a document or a
category that trims to the empty string is a silent no-op — the classifier,
hence both tables, is returned unchanged. -/
theorem training_empty_noop (t : Classifier) (doc category : String)
    (h : trimSpace doc = "" ∨ trimSpace category = "") :
    Training t doc category = t ∧ TrainingwithSlash t doc category = t := by
  constructor
  · unfold Training
    simp [h]
  · unfold TrainingwithSlash
    simp [h]

theorem training_empty_noop_witness :
    trimSpace "  " = "" ∧ Training tcEx "  " "x" = tcEx ∧
      TrainingwithSlash tcEx "  " "x" = tcEx :=
  ⟨by decide, (training_empty_noop tcEx "  " "x" (Or.inl (by decide))).1,
    (training_empty_noop tcEx "  " "x" (Or.inl (by decide))).2⟩

/-- Claim C10: TrainingwithSlash splits on the slash without trimming or
length-filtering the pieces, so a document with consecutive slashes records
the empty string itself as a term: after delimiter-training a document with a
double slash under a category, the empty term carries count 1 under that
category and the empty string is a key of the Term Frequency Table. -/
theorem slash_records_empty_term :
    countIn (TrainingwithSlash tcEx "a//b" "x").data "" "x" = 1 ∧
      (List.lookup "" (TrainingwithSlash tcEx "a//b" "x").data.words).isSome = true := by
  constructor <;> decide

/-- Claim C3: one Training (or TrainingwithSlash) call on a non-empty trimmed
document and category increments each distinct token of the document by
exactly 1 under that category — a token occurring several times is still
incremented once — and increments the category document count by exactly 1;
in particular delimiter-training the document with two occurrences of a
records both its distinct terms with count 1. -/
theorem training_increments (t : Classifier) (doc category : String)
    (hd : trimSpace doc ≠ "") (hc : trimSpace category ≠ "") :
    (∀ word ∈ t.segment (trimSpace doc),
        countIn (Training t doc category).data word (trimSpace category) =
          countIn t.data word (trimSpace category) + 1) ∧
      catCount (Training t doc category).data (trimSpace category) =
        catCount t.data (trimSpace category) + 1 ∧
      (∀ word ∈ splitSlash (trimSpace doc),
        countIn (TrainingwithSlash t doc category).data word (trimSpace category) =
          countIn t.data word (trimSpace category) + 1) ∧
      catCount (TrainingwithSlash t doc category).data (trimSpace category) =
        catCount t.data (trimSpace category) + 1 ∧
      countIn (TrainingwithSlash tcEx "a/b/a" "x").data "a" "x" = 1 ∧
      countIn (TrainingwithSlash tcEx "a/b/a" "x").data "b" "x" = 1 := by
  have hif : ¬(trimSpace doc = "" ∨ trimSpace category = "") := by
    intro h; rcases h with h | h
    · exact hd h
    · exact hc h
  refine ⟨?_, ?_, ?_, ?_, by decide, by decide⟩
  · intro word hw
    simp only [Training, if_neg hif]
    show wcount (trainLoop (trimSpace category) (t.segment (trimSpace doc)) []
      t.data.words) word (trimSpace category) = _
    rw [wcount_trainLoop_new _ _ _ _ _ hw (by simp)]
    rfl
  · simp only [Training, if_neg hif]
    show (List.lookup (trimSpace category) (bump t.data.categorys (trimSpace category))).getD 0 = _
    rw [lookup_bump_self]
    rfl
  · intro word hw
    simp only [TrainingwithSlash, if_neg hif]
    show wcount (trainLoop (trimSpace category) (splitSlash (trimSpace doc)) []
      t.data.words) word (trimSpace category) = _
    rw [wcount_trainLoop_new _ _ _ _ _ hw (by simp)]
    rfl
  · simp only [TrainingwithSlash, if_neg hif]
    show (List.lookup (trimSpace category) (bump t.data.categorys (trimSpace category))).getD 0 = _
    rw [lookup_bump_self]
    rfl

theorem training_increments_witness :
    trimSpace "a/b/a" ≠ "" ∧ trimSpace "x" ≠ "" ∧
      countIn (TrainingwithSlash tcEx "a/b/a" "x").data "a" "x" = 1 :=
  ⟨by decide, by decide,
    (training_increments tcEx "a/b/a" "x" (by decide) (by decide)).2.2.2.2.1⟩

theorem foldl_add_snd (l : List (String × ℚ)) (c : ℚ) :
    l.foldl (fun acc p => acc + p.2) c = c + (l.map Prod.snd).sum := by
  induction l generalizing c with
  | nil => simp
  | cons p rest ih => simp [ih, add_assoc]

/-- Claim C1: the weighted conditional probability equals
(w * a + total * basic) / (w + total) where basic is the raw conditional
probability and total is the sum of the term's counts over all categories;
for a term never observed anywhere and positive weight the result is exactly
the assumed probability a. -/
theorem wordWeightProb_formula (t : Classifier) (word category : String) (w a : ℚ) :
    wordWeightProb t word category w a =
      (w * a + (((List.lookup word t.data.words).getD []).map Prod.snd).sum *
          wordProb t word category) /
        (w + (((List.lookup word t.data.words).getD []).map Prod.snd).sum) ∧
      (List.lookup word t.data.words = none → 0 < w →
        wordWeightProb t word category w a = a) := by
  constructor
  · unfold wordWeightProb
    rw [foldl_add_snd]
    simp
  · intro hn hw
    unfold wordWeightProb wordProb
    rw [hn]
    simp
    exact mul_div_cancel_left₀ a (ne_of_gt hw)

theorem wordWeightProb_formula_witness :
    wordWeightProb tcEx "w" "c" 1 (1/2) =
      (1 * (1/2) + (((List.lookup "w" tcEx.data.words).getD []).map Prod.snd).sum *
          wordProb tcEx "w" "c") /
        (1 + (((List.lookup "w" tcEx.data.words).getD []).map Prod.snd).sum) ∧
      (List.lookup "w" tcEx.data.words = none ∧ (0:ℚ) < 1 ∧
        wordWeightProb tcEx "w" "c" 1 (1/2) = 1/2) :=
  ⟨(wordWeightProb_formula tcEx "w" "c" 1 (1/2)).1,
    by decide, by norm_num,
    (wordWeightProb_formula tcEx "w" "c" 1 (1/2)).2 (by decide) (by norm_num)⟩

/-- Claim C6: for a term absent from the Term Frequency Table, Score returns
the empty list whatever the category argument. -/
theorem score_unseen_empty (t : Classifier) (word category : String)
    (h : List.lookup word t.data.words = none) : Score t word category = [] := by
  unfold Score
  rw [h]

theorem score_unseen_empty_witness :
    List.lookup "w" tcEx.data.words = none ∧ Score tcEx "w" "c" = [] ∧
      Score tcEx "w" "" = [] :=
  ⟨by decide, score_unseen_empty tcEx "w" "c" (by decide),
    score_unseen_empty tcEx "w" "" (by decide)⟩

/-- Claim C7: on a model with an empty Category Table, Categorize returns the
empty list for every document; no category score is computed, so the zero
total document count is never used as a divisor. -/
theorem categorize_no_training_empty (t : Classifier) (doc : String)
    (h : t.data.categorys = []) : Categorize t doc = [] := by
  unfold Categorize
  rw [h]
  simp [Top]

theorem categorize_no_training_empty_witness :
    tcEx.data.categorys = [] ∧ Categorize tcEx "anything" = [] :=
  ⟨by decide, categorize_no_training_empty tcEx "anything" (by decide)⟩

theorem mem_of_lookup {l : List (String × List (String × ℚ))} {k : String}
    {v : List (String × ℚ)} (h : List.lookup k l = some v) : (k, v) ∈ l := by
  induction l with
  | nil => simp [List.lookup] at h
  | cons p rest ih =>
    obtain ⟨k₀, v₀⟩ := p
    by_cases he : k = k₀
    · subst he
      simp [List.lookup] at h
      simp [h]
    · simp [List.lookup, beq_false_of_ne he] at h
      exact List.mem_cons_of_mem _ (ih h)

theorem memq_of_lookup {l : List (String × ℚ)} {k : String} {v : ℚ}
    (h : List.lookup k l = some v) : (k, v) ∈ l := by
  induction l with
  | nil => simp [List.lookup] at h
  | cons p rest ih =>
    obtain ⟨k₀, v₀⟩ := p
    by_cases he : k = k₀
    · subst he
      simp [List.lookup] at h
      simp [h]
    · simp [List.lookup, beq_false_of_ne he] at h
      exact List.mem_cons_of_mem _ (ih h)

/-- Claim C4: on a well-formed model (non-negative counts), for weight at
least 0 and assumed probability in the unit interval, the weighted conditional
probability stays inside the closed span between the assumed probability and
the raw conditional probability. -/
theorem wordWeightProb_bounds (t : Classifier) (word category : String) (w a : ℚ)
    (hwf : WellFormed t.data) (hw : 0 ≤ w) (ha0 : 0 ≤ a) (ha1 : a ≤ 1) :
    min a (wordProb t word category) ≤ wordWeightProb t word category w a ∧
      wordWeightProb t word category w a ≤ max a (wordProb t word category) := by
  obtain ⟨hcat, hwords⟩ := hwf
  set inner := (List.lookup word t.data.words).getD [] with hinner
  have hInner : ∀ r ∈ inner, (0:ℚ) ≤ r.2 := by
    rcases hlk : List.lookup word t.data.words with _ | i
    · intro r hr
      rw [hinner, hlk] at hr
      simp at hr
    · intro r hr
      rw [hinner, hlk] at hr
      exact hwords _ (mem_of_lookup hlk) r hr
  set total := (inner.map Prod.snd).sum with htotaldef
  have htotal : (0:ℚ) ≤ total := by
    apply List.sum_nonneg
    intro x hx
    obtain ⟨r, hr, hrx⟩ := List.mem_map.mp hx
    exact hrx ▸ hInner r hr
  have hb : (0:ℚ) ≤ wordProb t word category := by
    unfold wordProb
    rcases hlk : List.lookup word t.data.words with _ | i
    · simp
    · rcases hlk2 : List.lookup category i with _ | num
      · simp [hlk2]
      · simp only [hlk2]
        apply div_nonneg
        · exact hwords _ (mem_of_lookup hlk) _ (memq_of_lookup hlk2)
        · rcases hlk3 : List.lookup category t.data.categorys with _ | c
          · simp
          · simpa using hcat _ (memq_of_lookup hlk3)
  have hwwp : wordWeightProb t word category w a =
      (w * a + total * wordProb t word category) / (w + total) := by
    unfold wordWeightProb
    rw [← hinner, foldl_add_snd]
    simp [htotaldef]
  set b := wordProb t word category with hbdef
  rcases eq_or_lt_of_le (add_nonneg hw htotal) with hD | hD
  · -- w + total = 0, hence w = 0 and total = 0 and b = 0
    have hw0 : w = 0 := by linarith
    have ht0 : total = 0 := by linarith
    have hb0 : b = 0 := by
      rw [hbdef]
      unfold wordProb
      rcases hlk : List.lookup word t.data.words with _ | i
      · rfl
      · rcases hlk2 : List.lookup category i with _ | num
        · simp [hlk2]
        · have hmem : num ∈ inner.map Prod.snd := by
            rw [hinner, hlk]
            simpa using List.mem_map_of_mem Prod.snd (memq_of_lookup hlk2)
          have h1 : num ≤ total := List.single_le_sum
            (by intro x hx; obtain ⟨r, hr, hrx⟩ := List.mem_map.mp hx; exact hrx ▸ hInner r hr)
            _ hmem
          have h2 : (0:ℚ) ≤ num := by
            rw [hinner, hlk] at hInner
            exact hwords _ (mem_of_lookup hlk) _ (memq_of_lookup hlk2)
          have : num = 0 := le_antisymm (ht0 ▸ h1) h2
          simp [hlk2, this]
    rw [hwwp, ← hD, div_zero, hb0]
    constructor
    · simp
    · simp
  · rw [hwwp]
    constructor
    · rw [le_div_iff₀ hD]
      nlinarith [mul_le_mul_of_nonneg_right (min_le_left a b) hw,
        mul_le_mul_of_nonneg_right (min_le_right a b) htotal]
    · rw [div_le_iff₀ hD]
      nlinarith [mul_le_mul_of_nonneg_right (le_max_left a b) hw,
        mul_le_mul_of_nonneg_right (le_max_right a b) htotal]

theorem wordWeightProb_bounds_witness :
    WellFormed tcEx.data ∧ ((0:ℚ) ≤ 1) ∧ ((0:ℚ) ≤ 1/2) ∧ ((1:ℚ)/2 ≤ 1) ∧
      (min (1/2) (wordProb tcEx "w" "c") ≤ wordWeightProb tcEx "w" "c" 1 (1/2) ∧
        wordWeightProb tcEx "w" "c" 1 (1/2) ≤ max (1/2) (wordProb tcEx "w" "c")) :=
  ⟨by decide, by norm_num, by norm_num, by norm_num,
    wordWeightProb_bounds tcEx "w" "c" 1 (1/2) (by decide) (by norm_num)
      (by norm_num) (by norm_num)⟩

theorem scoreLE_iff (x y : ScoreItem) : scoreLE x y = true ↔
    y.score < x.score ∨ (x.score = y.score ∧ x.category ≤ y.category) := by
  simp [scoreLE]

theorem scoreLE_trans (x y z : ScoreItem) (h1 : scoreLE x y = true)
    (h2 : scoreLE y z = true) : scoreLE x z = true := by
  rw [scoreLE_iff] at h1 h2 ⊢
  rcases h1 with h1 | ⟨h1e, h1c⟩
  · rcases h2 with h2 | ⟨h2e, h2c⟩
    · exact Or.inl (h2.trans h1)
    · exact Or.inl (h2e ▸ h1)
  · rcases h2 with h2 | ⟨h2e, h2c⟩
    · exact Or.inl (h1e ▸ h2)
    · exact Or.inr ⟨h1e.trans h2e, h1c.trans h2c⟩

theorem scoreLE_total (x y : ScoreItem) : (scoreLE x y || scoreLE y x) = true := by
  rcases lt_trichotomy x.score y.score with h | h | h
  · simp [scoreLE_iff, h]
  · rcases le_total x.category y.category with hc | hc
    · simp [scoreLE_iff, h, hc]
    · simp [scoreLE_iff, h, hc]
  · simp [scoreLE_iff, h]

theorem pairwise_top (n : Nat) (l : List ScoreItem) :
    List.Pairwise (fun x y => scoreLE x y = true) (Top n l) :=
  List.Pairwise.sublist (List.take_sublist n _)
    (List.sorted_mergeSort scoreLE_trans scoreLE_total l)

theorem length_top (n : Nat) (l : List ScoreItem) : (Top n l).length = min n l.length := by
  simp [Top]

theorem foldl_mul_map (f : String → ℚ) (l : List String) (c : ℚ) :
    l.foldl (fun p w => p * f w) c = c * (l.map f).prod := by
  induction l generalizing c with
  | nil => simp
  | cons w rest ih => simp [ih, mul_assoc]

/-- Claim C5: with no category filter, Score on an observed term returns one
weighted conditional probability per category the term has been observed
under, ranked top 10 by descending probability with ties ordered by category
name ascending; the result length is 10 capped by the number of observed
categories. -/
theorem score_all_categories (t : Classifier) (word : String)
    (inner : List (String × ℚ)) (h : List.lookup word t.data.words = some inner) :
    Score t word "" =
      Top 10 (inner.map
        (fun p => ⟨p.1, wordWeightProb t word p.1 t.defaultWeight t.defaultProb⟩)) ∧
      List.Pairwise (fun x y => scoreLE x y = true) (Score t word "") ∧
      (Score t word "").length = min 10 inner.length := by
  have h1 : Score t word "" =
      Top 10 (inner.map
        (fun p => ⟨p.1, wordWeightProb t word p.1 t.defaultWeight t.defaultProb⟩)) := by
    unfold Score
    rw [h]
    simp
  refine ⟨h1, ?_, ?_⟩
  · rw [h1]; exact pairwise_top _ _
  · rw [h1, length_top]
    simp

/-- Claim C2: Categorize scores every category of the Category Table with the
product of the document tokens' weighted conditional probabilities times the
category's document count divided by the total document count, and returns
the top 10 by descending score. -/
theorem categorize_posterior (t : Classifier) (doc : String) :
    Categorize t doc =
      Top 10 (t.data.categorys.map
        (fun p => ⟨p.1,
          ((t.segment doc).map
            (fun word => wordWeightProb t word p.1 t.defaultWeight t.defaultProb)).prod *
          catCount t.data p.1 / (t.data.categorys.map Prod.snd).sum⟩)) ∧
      List.Pairwise (fun x y => scoreLE x y = true) (Categorize t doc) ∧
      (Categorize t doc).length = min 10 t.data.categorys.length := by
  have h1 : Categorize t doc =
      Top 10 (t.data.categorys.map
        (fun p => ⟨p.1,
          ((t.segment doc).map
            (fun word => wordWeightProb t word p.1 t.defaultWeight t.defaultProb)).prod *
          catCount t.data p.1 / (t.data.categorys.map Prod.snd).sum⟩)) := by
    unfold Categorize docProb categoryNumTotal
    dsimp only
    congr 1
    apply List.map_congr_left
    intro p hp
    rw [foldl_mul_map, foldl_add_snd]
    simp [catCount]
  refine ⟨h1, ?_, ?_⟩
  · rw [h1]; exact pairwise_top _ _
  · rw [h1, length_top]
    simp

theorem categorize_posterior_witness :
    List.Pairwise (fun x y => scoreLE x y = true) (Categorize tcEx "d") ∧
      (Categorize tcEx "d").length = min 10 tcEx.data.categorys.length :=
  ⟨(categorize_posterior tcEx "d").2.1, (categorize_posterior tcEx "d").2.2⟩

theorem score_all_categories_witness :
    List.lookup "a" (Training tcEx "a" "x").data.words = some [("x", 1)] ∧
      (Score (Training tcEx "a" "x") "a" "").length = min 10 [("x", (1:ℚ))].length :=
  ⟨by decide,
    (score_all_categories (Training tcEx "a" "x") "a" [("x", 1)] (by decide)).2.2⟩

end BayesClassifier
